import Mathlib

/-!
Verification of the bone-age frontend (`src/bone_age/frontend/main.py`).

The script's reusable logic is embedded shallowly:
* pixel arrays become `List ℚ` (exact arithmetic in place of float32,
  with the final `astype(np.uint8)` cast modelled as truncation toward
  zero followed by reduction mod 256, as the C cast behaves on the
  in-range values produced here);
* the DICOM data set becomes an association list of (tag, value) pairs;
* the straight-line DICOM branch becomes an explicit list of steps in
  program order, so ordering claims are statements about indices.
-/

namespace BoneAge

/-- `np.max` on a flattened array; the empty case is unreachable in the
script (uploads decode to non-empty arrays) and gets a default. -/
def npMax {α : Type} [Inhabited α] [Max α] : List α → α
  | [] => default
  | x :: xs => xs.foldl max x

/-- `np.min` on a flattened array. -/
def npMin {α : Type} [Inhabited α] [Min α] : List α → α
  | [] => default
  | x :: xs => xs.foldl min x

/-- `astype(np.uint8)` applied to a float value: C-style conversion
truncates toward zero; the result is reduced mod 2^8.  All values cast
in the script are in [0, 255], where this is exactly `⌊q⌋`. -/
def astype_uint8 (q : ℚ) : ℕ := (Int.toNat ⌊q⌋) % 256

/-- `normalize_to_uint8` from main.py lines 46-51:
if `np.max(image) == np.min(image)` return `np.zeros_like(image, dtype=np.uint8)`;
otherwise rescale `255 * (image - min) / (max - min)` and cast to uint8. -/
def normalize_to_uint8 (image : List ℚ) : List ℕ :=
  if npMax image = npMin image then
    List.replicate image.length 0
  else
    image.map fun x =>
      astype_uint8 (255 * (x - npMin image) / (npMax image - npMin image))

/-- Modelled from the spec's words (section 4.1), NOT from the code: the
same rescale but with `round` before the cast, as the spec's formula
`round(255 * (input - min) / (max - min))` states.  Used only to compare
against `normalize_to_uint8`. -/
def normalize_spec_round (image : List ℚ) : List ℕ :=
  if npMax image = npMin image then
    List.replicate image.length 0
  else
    image.map fun x =>
      (Int.toNat (round (255 * (x - npMin image) / (npMax image - npMin image)))) % 256

/-- `estimate_bone_age` from main.py lines 54-56: the stub returns 120. -/
def estimate_bone_age (_image_array : List ℕ) : ℕ := 120

/-- `confidence_low = max(0, bone_age - 1.5)` (main.py line 89). -/
def confidence_low (bone_age : ℚ) : ℚ := max 0 (bone_age - 3/2)

/-- `confidence_high = min(216, bone_age + 1.5)` (main.py line 90). -/
def confidence_high (bone_age : ℚ) : ℚ := min 216 (bone_age + 3/2)

/-- The fixed tag list of the scrub loop (main.py line 76). -/
def scrubTags : List String := ["PatientName", "PatientID", "PatientBirthDate"]

/-- A decoded DICOM data set, as the scrub loop sees it: an association
list of (tag, value) pairs.  pydicom data sets have at most one element
per tag. -/
abbrev Dataset : Type := List (String × String)

/-- `dicom_data.data_element(tag).value = ""`: set the value stored at
`tag` to the empty string. -/
def setTag (d : Dataset) (tag : String) : Dataset :=
  List.map (fun p => if p.1 = tag then (p.1, "") else p) d

/-- One iteration of the scrub loop (main.py lines 76-78): `if tag in
dicom_data:` guard, then clear the element's value. -/
def scrubStep (d : Dataset) (tag : String) : Dataset :=
  if List.any d (fun p => p.1 = tag) then setTag d tag else d

/-- The whole scrub loop over the three fixed tags. -/
def scrub (d : Dataset) : Dataset := scrubTags.foldl scrubStep d

/-- `tag in dicom_data` / lookup of a tag's value in the data set. -/
def tagValue (tag : String) (d : Dataset) : Option String :=
  List.lookup tag d

/-- The operations of the DICOM branch (main.py lines 75-81 and the
result column), one constructor per statement, used to state ordering
claims. -/
inductive DicomOp : Type
  | readFile        -- pydicom.dcmread(uploaded_file), line 75
  | scrubMetadata   -- the scrub loop, lines 76-78
  | extractPixels   -- image = dicom_data.pixel_array, line 79
  | normalizeOp     -- normalize_to_uint8(image), line 80
  | displayImage    -- st.image(image, ...), line 81
  | estimateOp      -- estimate_bone_age(image), line 85
  | composeReport   -- PDF assembly, lines 101-111
  deriving DecidableEq

/-- The DICOM branch in source order: decode, scrub, extract pixels,
normalize, display, estimate, compose the report. -/
def dicomOps : List DicomOp :=
  [.readFile, .scrubMetadata, .extractPixels, .normalizeOp,
   .displayImage, .estimateOp, .composeReport]

/-- Python whitespace characters stripped by `str.strip()` (ASCII part;
the claims only exercise spaces). -/
def isPySpace (c : Char) : Bool :=
  c = ' ' || c = '\t' || c = '\n' || c = '\x0d' || c = '\x0b' || c = '\x0c'

/-- `patient_name.strip()`. -/
def pyStrip (s : String) : String :=
  String.mk (((s.data.dropWhile isPySpace).reverse.dropWhile isPySpace).reverse)

/-- `.replace(' ', '_')`: replacing a single-character pattern by a
single character is a character-wise map. -/
def replaceSpaces (s : String) : String :=
  String.mk (s.data.map fun c => if c = ' ' then '_' else c)

/-- `safe_filename = f"{patient_name.strip().replace(' ', '_')}_report.pdf"`
(main.py line 119). -/
def safe_filename (name : String) : String :=
  replaceSpaces (pyStrip name) ++ "_report.pdf"

/-- `patient_name = st.session_state.get("name", "patient")` (main.py
line 108): the stored name when one exists, else the default. -/
def patient_name (session_name : Option String) : String :=
  session_name.getD "patient"

/-! ### Helper lemmas about `npMax` / `npMin` -/

section MinMaxLemmas

set_option linter.unusedSectionVars false

variable {α : Type} [Inhabited α] [LinearOrder α]

lemma le_foldl_max (xs : List α) (a : α) : a ≤ xs.foldl max a := by
  induction xs generalizing a with
  | nil => exact le_refl a
  | cons x xs ih => exact le_trans (le_max_left a x) (ih (max a x))

lemma mem_le_foldl_max {b : α} {xs : List α} (h : b ∈ xs) (a : α) :
    b ≤ xs.foldl max a := by
  induction xs generalizing a with
  | nil => cases h
  | cons x xs ih =>
    rcases List.mem_cons.mp h with rfl | hb
    · exact le_trans (le_max_right a b) (le_foldl_max xs (max a b))
    · exact ih hb (max a x)

lemma foldl_max_mem (xs : List α) (a : α) :
    xs.foldl max a = a ∨ xs.foldl max a ∈ xs := by
  induction xs generalizing a with
  | nil => exact Or.inl rfl
  | cons x xs ih =>
    rcases ih (max a x) with h | h
    · rcases max_choice a x with hm | hm
      · exact Or.inl (by rw [List.foldl_cons, h, hm])
      · exact Or.inr (by rw [List.foldl_cons, h, hm]; exact List.mem_cons_self x xs)
    · exact Or.inr (List.mem_cons_of_mem x h)

lemma foldl_min_le (xs : List α) (a : α) : xs.foldl min a ≤ a := by
  induction xs generalizing a with
  | nil => exact le_refl a
  | cons x xs ih => exact le_trans (ih (min a x)) (min_le_left a x)

lemma foldl_min_le_mem {b : α} {xs : List α} (h : b ∈ xs) (a : α) :
    xs.foldl min a ≤ b := by
  induction xs generalizing a with
  | nil => cases h
  | cons x xs ih =>
    rcases List.mem_cons.mp h with rfl | hb
    · exact le_trans (foldl_min_le xs (min a b)) (min_le_right a b)
    · exact ih hb (min a x)

lemma foldl_min_mem (xs : List α) (a : α) :
    xs.foldl min a = a ∨ xs.foldl min a ∈ xs := by
  induction xs generalizing a with
  | nil => exact Or.inl rfl
  | cons x xs ih =>
    rcases ih (min a x) with h | h
    · rcases min_choice a x with hm | hm
      · exact Or.inl (by rw [List.foldl_cons, h, hm])
      · exact Or.inr (by rw [List.foldl_cons, h, hm]; exact List.mem_cons_self x xs)
    · exact Or.inr (List.mem_cons_of_mem x h)

lemma npMax_mem {l : List α} (h : l ≠ []) : npMax l ∈ l := by
  cases l with
  | nil => exact absurd rfl h
  | cons x xs =>
    rcases foldl_max_mem xs x with h' | h'
    · rw [npMax, h']; exact List.mem_cons_self x xs
    · exact List.mem_cons_of_mem x h'

lemma le_npMax {l : List α} {x : α} (h : x ∈ l) : x ≤ npMax l := by
  cases l with
  | nil => cases h
  | cons y ys =>
    rcases List.mem_cons.mp h with rfl | hx
    · exact le_foldl_max ys x
    · exact mem_le_foldl_max hx y

lemma npMin_mem {l : List α} (h : l ≠ []) : npMin l ∈ l := by
  cases l with
  | nil => exact absurd rfl h
  | cons x xs =>
    rcases foldl_min_mem xs x with h' | h'
    · rw [npMin, h']; exact List.mem_cons_self x xs
    · exact List.mem_cons_of_mem x h'

lemma npMin_le {l : List α} {x : α} (h : x ∈ l) : npMin l ≤ x := by
  cases l with
  | nil => cases h
  | cons y ys =>
    rcases List.mem_cons.mp h with rfl | hx
    · exact foldl_min_le ys x
    · exact foldl_min_le_mem hx y

lemma npMax_eq_of_all_eq {l : List α} {c : α} (h : l ≠ [])
    (hc : ∀ x ∈ l, x = c) : npMax l = c :=
  hc _ (npMax_mem h)

lemma npMin_eq_of_all_eq {l : List α} {c : α} (h : l ≠ [])
    (hc : ∀ x ∈ l, x = c) : npMin l = c :=
  hc _ (npMin_mem h)

end MinMaxLemmas

/-! ### Lemmas about `normalize_to_uint8` -/

lemma normalize_length (l : List ℚ) :
    (normalize_to_uint8 l).length = l.length := by
  unfold normalize_to_uint8
  split <;> simp

lemma normalize_scale_nonneg {l : List ℚ} {x : ℚ} (hx : x ∈ l)
    (h : npMin l < npMax l) :
    0 ≤ 255 * (x - npMin l) / (npMax l - npMin l) := by
  have h1 : npMin l ≤ x := npMin_le hx
  have h2 : (0:ℚ) < npMax l - npMin l := sub_pos.mpr h
  apply div_nonneg _ (le_of_lt h2)
  nlinarith

lemma normalize_scale_le {l : List ℚ} {x : ℚ} (hx : x ∈ l)
    (h : npMin l < npMax l) :
    255 * (x - npMin l) / (npMax l - npMin l) ≤ 255 := by
  have h1 : x ≤ npMax l := le_npMax hx
  have h2 : (0:ℚ) < npMax l - npMin l := sub_pos.mpr h
  rw [div_le_iff₀ h2]
  nlinarith

lemma floor_scale_lt_256 {l : List ℚ} {x : ℚ} (hx : x ∈ l)
    (h : npMin l < npMax l) :
    Int.toNat ⌊255 * (x - npMin l) / (npMax l - npMin l)⌋ < 256 := by
  have hle : ⌊255 * (x - npMin l) / (npMax l - npMin l)⌋ ≤ (255:ℤ) := by
    calc ⌊255 * (x - npMin l) / (npMax l - npMin l)⌋
        ≤ ⌊(255:ℚ)⌋ := Int.floor_mono (normalize_scale_le hx h)
      _ = 255 := by norm_num
  omega

lemma normalize_eq_map {l : List ℚ} (h : npMin l < npMax l) :
    normalize_to_uint8 l =
      l.map fun x => Int.toNat ⌊255 * (x - npMin l) / (npMax l - npMin l)⌋ := by
  unfold normalize_to_uint8
  rw [if_neg (ne_of_gt h)]
  refine List.map_congr_left fun x hx => ?_
  unfold astype_uint8
  exact Nat.mod_eq_of_lt (floor_scale_lt_256 hx h)

lemma mem_normalize_le {l : List ℚ} {y : ℕ} (hy : y ∈ normalize_to_uint8 l) :
    y ≤ 255 := by
  unfold normalize_to_uint8 at hy
  split at hy
  · have : y = 0 := List.eq_of_mem_replicate hy
    omega
  · rcases List.mem_map.mp hy with ⟨x, _, rfl⟩
    unfold astype_uint8
    omega

lemma zero_mem_normalize {l : List ℚ} (h0 : l ≠ []) (h : npMin l < npMax l) :
    0 ∈ normalize_to_uint8 l := by
  rw [normalize_eq_map h]
  refine List.mem_map.mpr ⟨npMin l, npMin_mem h0, ?_⟩
  rw [sub_self, mul_zero, zero_div]
  simp

lemma mem_255_normalize {l : List ℚ} (h0 : l ≠ []) (h : npMin l < npMax l) :
    255 ∈ normalize_to_uint8 l := by
  rw [normalize_eq_map h]
  refine List.mem_map.mpr ⟨npMax l, npMax_mem h0, ?_⟩
  have h2 : npMax l - npMin l ≠ 0 := sub_ne_zero.mpr (ne_of_gt h)
  rw [mul_div_assoc, div_self h2, mul_one]
  have h255 : ⌊(255:ℚ)⌋ = 255 := by norm_num
  rw [h255]
  rfl

lemma normalize_ne_nil {l : List ℚ} (h0 : l ≠ []) :
    normalize_to_uint8 l ≠ [] := by
  intro he
  have hlen := normalize_length l
  rw [he] at hlen
  exact h0 (List.length_eq_zero.mp hlen.symm)

lemma normalize_npMin {l : List ℚ} (h0 : l ≠ []) (h : npMin l < npMax l) :
    npMin (normalize_to_uint8 l) = 0 :=
  Nat.le_zero.mp (npMin_le (zero_mem_normalize h0 h))

lemma normalize_npMax {l : List ℚ} (h0 : l ≠ []) (h : npMin l < npMax l) :
    npMax (normalize_to_uint8 l) = 255 :=
  le_antisymm (mem_normalize_le (npMax_mem (normalize_ne_nil h0)))
    (le_npMax (mem_255_normalize h0 h))

lemma normalize_flat {l : List ℚ} {c : ℚ} (h0 : l ≠ [])
    (hc : ∀ x ∈ l, x = c) :
    normalize_to_uint8 l = List.replicate l.length 0 := by
  unfold normalize_to_uint8
  rw [if_pos]
  rw [npMax_eq_of_all_eq h0 hc, npMin_eq_of_all_eq h0 hc]

/-! ### Casting a `uint8` array back to ℚ (for re-normalization) -/

lemma foldl_max_map_cast (xs : List ℕ) (a : ℕ) :
    (xs.map (Nat.cast : ℕ → ℚ)).foldl max (a : ℚ) = ((xs.foldl max a : ℕ) : ℚ) := by
  induction xs generalizing a with
  | nil => rfl
  | cons x xs ih =>
    rw [List.map_cons, List.foldl_cons, List.foldl_cons, ← Nat.cast_max, ih]

lemma foldl_min_map_cast (xs : List ℕ) (a : ℕ) :
    (xs.map (Nat.cast : ℕ → ℚ)).foldl min (a : ℚ) = ((xs.foldl min a : ℕ) : ℚ) := by
  induction xs generalizing a with
  | nil => rfl
  | cons x xs ih =>
    rw [List.map_cons, List.foldl_cons, List.foldl_cons, ← Nat.cast_min, ih]

lemma npMax_map_cast {l : List ℕ} (h0 : l ≠ []) :
    npMax (l.map (Nat.cast : ℕ → ℚ)) = ((npMax l : ℕ) : ℚ) := by
  cases l with
  | nil => exact absurd rfl h0
  | cons x xs => exact foldl_max_map_cast xs x

lemma npMin_map_cast {l : List ℕ} (h0 : l ≠ []) :
    npMin (l.map (Nat.cast : ℕ → ℚ)) = ((npMin l : ℕ) : ℚ) := by
  cases l with
  | nil => exact absurd rfl h0
  | cons x xs => exact foldl_min_map_cast xs x

lemma normalize_idem {l : List ℚ} (h0 : l ≠ []) :
    normalize_to_uint8 ((normalize_to_uint8 l).map (Nat.cast : ℕ → ℚ)) =
      normalize_to_uint8 l := by
  rcases eq_or_lt_of_le (npMin_le (npMax_mem h0)) with heq | hlt
  · have hflat : normalize_to_uint8 l = List.replicate l.length 0 := by
      unfold normalize_to_uint8
      rw [if_pos heq.symm]
    have hn : l.length ≠ 0 := fun hz => h0 (List.length_eq_zero.mp hz)
    have hne : List.replicate l.length ((0:ℕ):ℚ) ≠ [] := by
      intro he
      have := congrArg List.length he
      simp only [List.length_replicate, List.length_nil] at this
      exact hn this
    rw [hflat, List.map_replicate]
    rw [normalize_flat hne (fun x hx => List.eq_of_mem_replicate hx),
      List.length_replicate]
  · have hmin := normalize_npMin h0 hlt
    have hmax := normalize_npMax h0 hlt
    have hne := normalize_ne_nil h0
    have hminc : npMin ((normalize_to_uint8 l).map (Nat.cast : ℕ → ℚ)) = 0 := by
      rw [npMin_map_cast hne, hmin, Nat.cast_zero]
    have hmaxc : npMax ((normalize_to_uint8 l).map (Nat.cast : ℕ → ℚ)) = 255 := by
      rw [npMax_map_cast hne, hmax]
      norm_num
    have hlt' : npMin ((normalize_to_uint8 l).map (Nat.cast : ℕ → ℚ)) <
        npMax ((normalize_to_uint8 l).map (Nat.cast : ℕ → ℚ)) := by
      rw [hminc, hmaxc]
      norm_num
    rw [normalize_eq_map hlt', hminc, hmaxc, List.map_map]
    have hid : ∀ y ∈ normalize_to_uint8 l,
        ((fun x => Int.toNat ⌊255 * (x - 0) / (255 - 0)⌋) ∘ (Nat.cast : ℕ → ℚ)) y
          = id y := by
      intro y _
      simp only [Function.comp_apply, sub_zero, id_eq]
      rw [mul_div_cancel_left₀ _ (show (255:ℚ) ≠ 0 by norm_num)]
      simp
    rw [List.map_congr_left hid, List.map_id]

/-! ### Lemmas about the metadata scrub -/

lemma tagValue_setTag_self (d : Dataset) (t : String) :
    tagValue t (setTag d t) = (tagValue t d).map fun _ => "" := by
  induction d with
  | nil => rfl
  | cons p d ih =>
    obtain ⟨k, v⟩ := p
    unfold tagValue setTag
    rw [List.map_cons]
    by_cases hk : k = t
    · subst hk
      rw [if_pos (show (k, v).1 = k from rfl), List.lookup_cons_self,
        List.lookup_cons_self]
      rfl
    · rw [if_neg hk, List.lookup_cons, List.lookup_cons,
        show (t == k) = false from beq_eq_false_iff_ne.mpr (Ne.symm hk)]
      exact ih

lemma tagValue_setTag_ne (d : Dataset) {t t' : String} (h : t' ≠ t) :
    tagValue t' (setTag d t) = tagValue t' d := by
  induction d with
  | nil => rfl
  | cons p d ih =>
    obtain ⟨k, v⟩ := p
    unfold tagValue setTag
    rw [List.map_cons]
    by_cases hk : k = t
    · subst hk
      rw [if_pos (show (k, v).1 = k from rfl), List.lookup_cons, List.lookup_cons,
        show (t' == k) = false from beq_eq_false_iff_ne.mpr h]
      exact ih
    · rw [if_neg hk, List.lookup_cons, List.lookup_cons]
      cases hb : (t' == k) with
      | true => rfl
      | false => exact ih

lemma lookup_eq_none_of_not_any {d : Dataset} {t : String}
    (h : List.any d (fun p => p.1 = t) = false) : tagValue t d = none := by
  induction d with
  | nil => rfl
  | cons p d ih =>
    obtain ⟨k, v⟩ := p
    simp only [List.any_cons, Bool.or_eq_false_iff] at h
    have hk : k ≠ t := of_decide_eq_false h.1
    unfold tagValue
    rw [List.lookup_cons,
      show (t == k) = false from beq_eq_false_iff_ne.mpr (Ne.symm hk)]
    exact ih h.2

lemma tagValue_scrubStep_self (d : Dataset) (t : String) :
    tagValue t (scrubStep d t) = (tagValue t d).map fun _ => "" := by
  unfold scrubStep
  split
  · exact tagValue_setTag_self d t
  · next h =>
    have hany : List.any d (fun p => p.1 = t) = false := by
      revert h
      cases List.any d (fun p => p.1 = t) <;> simp
    rw [lookup_eq_none_of_not_any hany]
    rfl

lemma tagValue_scrubStep_ne (d : Dataset) {t t' : String} (h : t' ≠ t) :
    tagValue t' (scrubStep d t) = tagValue t' d := by
  unfold scrubStep
  split
  · exact tagValue_setTag_ne d h
  · rfl

/-! ### Claim theorems -/

/-- Claim C1: for every non-empty numeric array whose samples are all equal
(a flat image), `normalize_to_uint8` returns an all-zero array of the same
shape with 8-bit unsigned elements. -/
theorem normalize_flat_all_zero (l : List ℚ) (c : ℚ) (h0 : l ≠ [])
    (hc : ∀ x ∈ l, x = c) :
    normalize_to_uint8 l = List.replicate l.length 0 :=
  normalize_flat h0 hc

theorem normalize_flat_all_zero_witness :
    normalize_to_uint8 [(5:ℚ), 5, 5] = List.replicate (List.length [(5:ℚ), 5, 5]) 0 :=
  normalize_flat_all_zero [(5:ℚ), 5, 5] 5 (by decide) (by decide)

/-- Claim C2, counterexample: on the array `[0, 1, 2]` (whose min 0 is less
than its max 2) the code truncates `255 * 1 / 2 = 127.5` to `127`, while the
claim's formula `round(255 * (x - m) / (M - m))` gives `128` at the middle
element, so the claim as stated is false. -/
theorem normalize_round_counterexample :
    npMin [(0:ℚ), 1, 2] < npMax [(0:ℚ), 1, 2] ∧
    normalize_to_uint8 [(0:ℚ), 1, 2] = [0, 127, 255] ∧
    normalize_spec_round [(0:ℚ), 1, 2] = [0, 128, 255] ∧
    normalize_to_uint8 [(0:ℚ), 1, 2] ≠ normalize_spec_round [(0:ℚ), 1, 2] := by
  have h1 : normalize_to_uint8 [(0:ℚ), 1, 2] = [0, 127, 255] := by
    norm_num [normalize_to_uint8, npMax, npMin, astype_uint8]
    decide
  have h2 : normalize_spec_round [(0:ℚ), 1, 2] = [0, 128, 255] := by
    norm_num [normalize_spec_round, npMax, npMin, round_eq]
    decide
  exact ⟨by decide, h1, h2, by rw [h1, h2]; decide⟩

/-- Claim C2 as amended: for every non-empty array with min `m` strictly
below max `M`, each output element of `normalize_to_uint8` equals
`255 * (x - m) / (M - m)` TRUNCATED toward zero (floor, the values being
nonnegative) — not rounded — and cast to 8-bit unsigned; the function is
the per-element map of that formula, with no dependence on neighboring
elements, and every output value fits in 8 bits. -/
theorem normalize_truncation (l : List ℚ) (h : npMin l < npMax l) :
    normalize_to_uint8 l =
      l.map (fun x => Int.toNat ⌊255 * (x - npMin l) / (npMax l - npMin l)⌋) ∧
    ∀ y ∈ normalize_to_uint8 l, y < 256 :=
  ⟨normalize_eq_map h, fun _ hy => Nat.lt_succ_of_le (mem_normalize_le hy)⟩

theorem normalize_truncation_witness :
    normalize_to_uint8 [(0:ℚ), 1, 2] =
      List.map (fun x => Int.toNat
        ⌊255 * (x - npMin [(0:ℚ), 1, 2]) / (npMax [(0:ℚ), 1, 2] - npMin [(0:ℚ), 1, 2])⌋)
        [(0:ℚ), 1, 2] ∧
    ∀ y ∈ normalize_to_uint8 [(0:ℚ), 1, 2], y < 256 :=
  normalize_truncation [(0:ℚ), 1, 2] (by decide)

/-- Claim C3: for every non-empty array with minimum strictly below maximum,
the array returned by `normalize_to_uint8` has minimum element 0 and maximum
element 255. -/
theorem normalize_output_min_max (l : List ℚ) (h0 : l ≠ [])
    (h : npMin l < npMax l) :
    npMin (normalize_to_uint8 l) = 0 ∧ npMax (normalize_to_uint8 l) = 255 :=
  ⟨normalize_npMin h0 h, normalize_npMax h0 h⟩

theorem normalize_output_min_max_witness :
    npMin (normalize_to_uint8 [(0:ℚ), 1, 2]) = 0 ∧
    npMax (normalize_to_uint8 [(0:ℚ), 1, 2]) = 255 :=
  normalize_output_min_max [(0:ℚ), 1, 2] (by decide) (by decide)

/-- Claim C4: for every non-empty array whose elements already lie in
[0, 255], applying `normalize_to_uint8` twice (casting the 8-bit output
back to numbers in between) gives the same result as applying it once —
here proved as an exact equality, which is stronger than the claimed
equality up to rounding. -/
theorem normalize_idempotent_uint8 (l : List ℚ) (h0 : l ≠ [])
    (_hrange : ∀ x ∈ l, 0 ≤ x ∧ x ≤ 255) :
    normalize_to_uint8 ((normalize_to_uint8 l).map (Nat.cast : ℕ → ℚ)) =
      normalize_to_uint8 l :=
  normalize_idem h0

theorem normalize_idempotent_uint8_witness :
    normalize_to_uint8 ((normalize_to_uint8 [(0:ℚ), 1, 2]).map (Nat.cast : ℕ → ℚ)) =
      normalize_to_uint8 [(0:ℚ), 1, 2] :=
  normalize_idempotent_uint8 [(0:ℚ), 1, 2] (by decide) (by decide)

/-- Claim C5: the metadata scrub sets the value of each of PatientName,
PatientID and PatientBirthDate to the empty string when the tag is present,
leaves an absent tag absent (lookup stays `none`, no error — the scrub is a
total function), and leaves the value of every other tag unchanged. -/
theorem scrub_contract (d : Dataset) (t : String) :
    (t ∈ scrubTags → tagValue t (scrub d) = (tagValue t d).map fun _ => "") ∧
    (t ∉ scrubTags → tagValue t (scrub d) = tagValue t d) := by
  have hs : scrub d =
      scrubStep (scrubStep (scrubStep d "PatientName") "PatientID")
        "PatientBirthDate" := rfl
  constructor
  · intro ht
    have ht' : t = "PatientName" ∨ t = "PatientID" ∨ t = "PatientBirthDate" := by
      simpa [scrubTags] using ht
    rw [hs]
    rcases ht' with rfl | rfl | rfl
    · have e1 : ("PatientName" : String) ≠ "PatientBirthDate" := by decide
      have e2 : ("PatientName" : String) ≠ "PatientID" := by decide
      rw [tagValue_scrubStep_ne _ e1, tagValue_scrubStep_ne _ e2,
        tagValue_scrubStep_self]
    · have e1 : ("PatientID" : String) ≠ "PatientBirthDate" := by decide
      have e2 : ("PatientID" : String) ≠ "PatientName" := by decide
      rw [tagValue_scrubStep_ne _ e1, tagValue_scrubStep_self,
        tagValue_scrubStep_ne _ e2]
    · have e1 : ("PatientBirthDate" : String) ≠ "PatientID" := by decide
      have e2 : ("PatientBirthDate" : String) ≠ "PatientName" := by decide
      rw [tagValue_scrubStep_self, tagValue_scrubStep_ne _ e1,
        tagValue_scrubStep_ne _ e2]
  · intro ht
    have h1 : t ≠ "PatientName" := fun he => ht (by rw [he]; decide)
    have h2 : t ≠ "PatientID" := fun he => ht (by rw [he]; decide)
    have h3 : t ≠ "PatientBirthDate" := fun he => ht (by rw [he]; decide)
    rw [hs, tagValue_scrubStep_ne _ h3, tagValue_scrubStep_ne _ h2,
      tagValue_scrubStep_ne _ h1]

theorem scrub_contract_witness :
    tagValue "PatientID"
        (scrub [("PatientName", "Jane Doe"), ("PatientID", "123"),
                ("PatientBirthDate", "20100101"), ("StudyDate", "20240101")])
      = some "" ∧
    tagValue "StudyDate"
        (scrub [("PatientName", "Jane Doe"), ("PatientID", "123"),
                ("PatientBirthDate", "20100101"), ("StudyDate", "20240101")])
      = some "20240101" := by
  constructor
  · have h := (scrub_contract
      [("PatientName", "Jane Doe"), ("PatientID", "123"),
       ("PatientBirthDate", "20100101"), ("StudyDate", "20240101")] "PatientID").1
      (by decide)
    rw [h]
    decide
  · have h := (scrub_contract
      [("PatientName", "Jane Doe"), ("PatientID", "123"),
       ("PatientBirthDate", "20100101"), ("StudyDate", "20240101")] "StudyDate").2
      (by decide)
    rw [h]
    decide

/-- Claim C6: in the DICOM branch the metadata scrub occurs in the
operation sequence, and it occurs strictly before pixel extraction, before
the image display, before the estimator call and before the report is
composed. -/
theorem scrub_precedes_downstream :
    DicomOp.scrubMetadata ∈ dicomOps ∧
    List.indexOf DicomOp.scrubMetadata dicomOps
      < List.indexOf DicomOp.extractPixels dicomOps ∧
    List.indexOf DicomOp.scrubMetadata dicomOps
      < List.indexOf DicomOp.displayImage dicomOps ∧
    List.indexOf DicomOp.scrubMetadata dicomOps
      < List.indexOf DicomOp.estimateOp dicomOps ∧
    List.indexOf DicomOp.scrubMetadata dicomOps
      < List.indexOf DicomOp.composeReport dicomOps := by
  decide

/-- Claim C7: `estimate_bone_age` returns the constant 120 (months) for
every input image, so the result does not depend on the image. -/
theorem estimate_bone_age_const :
    ∀ image_array : List ℕ, estimate_bone_age image_array = 120 ∧
      ∀ other : List ℕ, estimate_bone_age image_array = estimate_bone_age other :=
  fun _ => ⟨rfl, fun _ => rfl⟩

/-- Claim C8: for every age estimate `a`, the displayed confidence band is
`[max(0, a - 1.5), min(216, a + 1.5)]`; at 120 it is [118.5, 121.5], at 1
it is [0, 2.5], and at 216 the upper end is clamped at 216. -/
theorem confidence_band_spec :
    (∀ a : ℚ, confidence_low a = max 0 (a - 3/2) ∧
      confidence_high a = min 216 (a + 3/2)) ∧
    confidence_low 120 = 237/2 ∧ confidence_high 120 = 243/2 ∧
    confidence_low 1 = 0 ∧ confidence_high 1 = 5/2 ∧
    confidence_high 216 = 216 := by
  refine ⟨fun a => ⟨rfl, rfl⟩, ?_, ?_, ?_, ?_, ?_⟩ <;>
    norm_num [confidence_low, confidence_high, max_def, min_def]

/-- Claim C9: the download filename is the patient name with leading and
trailing whitespace trimmed, each remaining space replaced by an
underscore, and `_report.pdf` appended; on "Jane Doe" it is
"Jane_Doe_report.pdf" and on "  Bob  " it is "Bob_report.pdf". -/
theorem safe_filename_spec :
    (∀ name : String, safe_filename name =
      String.mk ((((name.data.dropWhile isPySpace).reverse.dropWhile
        isPySpace).reverse).map fun c => if c = ' ' then '_' else c)
        ++ "_report.pdf") ∧
    safe_filename "Jane Doe" = "Jane_Doe_report.pdf" ∧
    safe_filename "  Bob  " = "Bob_report.pdf" :=
  ⟨fun _ => rfl, by decide, by decide⟩

/-- Claim C10: a patient name made only of whitespace (the empty string
included) yields the filename "_report.pdf"; when no name is stored in the
session state, the default name "patient" is used and the filename is
"patient_report.pdf". -/
theorem whitespace_name_filename :
    (∀ name : String, name.data.all isPySpace = true →
      safe_filename name = "_report.pdf") ∧
    patient_name none = "patient" ∧
    safe_filename (patient_name none) = "patient_report.pdf" := by
  refine ⟨?_, rfl, by decide⟩
  intro name h
  have hdrop : name.data.dropWhile isPySpace = [] := by
    rw [List.dropWhile_eq_nil_iff]
    intro x hx
    exact List.all_eq_true.mp h x hx
  unfold safe_filename replaceSpaces pyStrip
  rw [hdrop]
  decide

theorem whitespace_name_filename_witness :
    safe_filename "   " = "_report.pdf" :=
  whitespace_name_filename.1 "   " (by decide)

end BoneAge

